import Mathlib

/-!
# Verification of the ecal image/calendar pipeline

A shallow embedding in Lean 4 of the pure computational core of the
`ecal` repository:

* `calendar_server.py`: `compute_events_hash` (canonical event
  serialization and SHA-256 fingerprinting), and the screenshot
  post-processing pipeline of `generate_calendar_screenshot`
  (hard crop, whitespace detection, final resize);
* `display_image.py`: the `display_image` rotation/scaling geometry;
* `calendar_sync_service.py`: the polling loop of `main`;
* `image_receiver_server.py`: the `/upload` request handler.

Machine integers are modelled as `Nat` with explicit `% 2^32` where the
SHA-256 rounds overflow; Python float arithmetic on ratios is modelled
with exact rationals (`ℚ`); Python's `int()` truncation of nonnegative
values is `Int.toNat ∘ Int.floor`.
-/

namespace ECal

/-! ## SHA-256 (model of Python's `hashlib.sha256`)

A byte string is a `List ℕ` of values `< 256`.  The implementation
follows FIPS 180-4: padding, 64-round compression, big-endian words.
-/

/-- 32-bit modular addition. -/
def add32 (a b : ℕ) : ℕ := (a + b) % 4294967296

/-- Right rotation of a 32-bit word. -/
def rotr32 (x n : ℕ) : ℕ := x / 2 ^ n + x % 2 ^ n * 2 ^ (32 - n)

/-- Logical right shift of a 32-bit word. -/
def shr32 (x n : ℕ) : ℕ := x / 2 ^ n

/-- Bitwise complement of a 32-bit word (valid for `a < 2^32`). -/
def not32 (a : ℕ) : ℕ := 4294967295 - a

def bigSigma0 (x : ℕ) : ℕ := Nat.xor (Nat.xor (rotr32 x 2) (rotr32 x 13)) (rotr32 x 22)

def bigSigma1 (x : ℕ) : ℕ := Nat.xor (Nat.xor (rotr32 x 6) (rotr32 x 11)) (rotr32 x 25)

def smallSigma0 (x : ℕ) : ℕ := Nat.xor (Nat.xor (rotr32 x 7) (rotr32 x 18)) (shr32 x 3)

def smallSigma1 (x : ℕ) : ℕ := Nat.xor (Nat.xor (rotr32 x 17) (rotr32 x 19)) (shr32 x 10)

def ch32 (x y z : ℕ) : ℕ := Nat.xor (Nat.land x y) (Nat.land (not32 x) z)

def maj32 (x y z : ℕ) : ℕ :=
  Nat.xor (Nat.xor (Nat.land x y) (Nat.land x z)) (Nat.land y z)

/-- The 64 SHA-256 round constants (FIPS 180-4, in decimal). -/
def K256 : List ℕ :=
  [1116352408, 1899447441, 3049323471, 3921009573, 961987163, 1508970993,
   2453635748, 2870763221, 3624381080, 310598401, 607225278, 1426881987,
   1925078388, 2162078206, 2614888103, 3248222580, 3835390401, 4022224774,
   264347078, 604807628, 770255983, 1249150122, 1555081692, 1996064986,
   2554220882, 2821834349, 2952996808, 3210313671, 3336571891, 3584528711,
   113926993, 338241895, 666307205, 773529912, 1294757372, 1396182291,
   1695183700, 1986661051, 2177026350, 2456956037, 2730485921, 2820302411,
   3259730800, 3345764771, 3516065817, 3600352804, 4094571909, 275423344,
   430227734, 506948616, 659060556, 883997877, 958139571, 1322822218,
   1537002063, 1747873779, 1955562222, 2024104815, 2227730452, 2361852424,
   2428436474, 2756734187, 3204031479, 3329325298]

/-- The SHA-256 initial hash value (in decimal). -/
def initH256 : List ℕ :=
  [1779033703, 3144134277, 1013904242, 2773480762, 1359893119, 2600822924,
   528734635, 1541459225]

/-- Big-endian 32-bit words from bytes. -/
def bytesToWords : List ℕ → List ℕ
  | b0 :: b1 :: b2 :: b3 :: rest => (((b0 * 256 + b1) * 256 + b2) * 256 + b3) :: bytesToWords rest
  | _ => []

/-- Extend the 16-word message schedule by `n` further words. -/
def extendW : ℕ → List ℕ → List ℕ
  | 0, ws => ws
  | n + 1, ws =>
    let t := ws.length
    let next :=
      add32 (add32 (smallSigma1 (ws.getD (t - 2) 0)) (ws.getD (t - 7) 0))
        (add32 (smallSigma0 (ws.getD (t - 15) 0)) (ws.getD (t - 16) 0))
    extendW n (ws ++ [next])

/-- One SHA-256 round on the 8-word working state; `kw` packs the round
constant and the schedule word. -/
def compressRound (st : List ℕ) (kw : ℕ × ℕ) : List ℕ :=
  let a := st.getD 0 0
  let b := st.getD 1 0
  let c := st.getD 2 0
  let d := st.getD 3 0
  let e := st.getD 4 0
  let f := st.getD 5 0
  let g := st.getD 6 0
  let h := st.getD 7 0
  let t1 := add32 h (add32 (bigSigma1 e) (add32 (ch32 e f g) (add32 kw.1 kw.2)))
  let t2 := add32 (bigSigma0 a) (maj32 a b c)
  [add32 t1 t2, a, b, c, add32 d t1, e, f, g]

/-- Process one 64-byte block. -/
def processBlock (st : List ℕ) (block : List ℕ) : List ℕ :=
  let w := extendW 48 (bytesToWords block)
  let final := (K256.zip w).foldl compressRound st
  List.zipWith add32 st final

/-- Big-endian 8-byte encoding of a length. -/
def be64 (n : ℕ) : List ℕ :=
  [n / 2 ^ 56 % 256, n / 2 ^ 48 % 256, n / 2 ^ 40 % 256, n / 2 ^ 32 % 256,
   n / 2 ^ 24 % 256, n / 2 ^ 16 % 256, n / 2 ^ 8 % 256, n % 256]

/-- SHA-256 padding: `0x80`, zeros to 56 mod 64, then the bit length. -/
def sha256Pad (msg : List ℕ) : List ℕ :=
  msg ++ 0x80 :: (List.replicate ((119 - msg.length % 64) % 64) 0 ++ be64 (8 * msg.length))

/-- Split into 64-byte blocks (fuelled for structural recursion). -/
def toBlocks : ℕ → List ℕ → List (List ℕ)
  | 0, _ => []
  | _ + 1, [] => []
  | fuel + 1, l => l.take 64 :: toBlocks fuel (l.drop 64)

/-- The SHA-256 digest of a byte string, as eight 32-bit words. -/
def sha256Words (msg : List ℕ) : List ℕ :=
  let padded := sha256Pad msg
  (toBlocks padded.length padded).foldl processBlock initH256

/-- The lowercase hexadecimal digit for `n < 16`: `0`-`9` then
`a`-`f`. -/
def hexDigit (n : ℕ) : Char :=
  if n < 10 then Char.ofNat (48 + n) else Char.ofNat (87 + n)

/-- Lowercase hexadecimal rendering of a 32-bit word (8 digits). -/
def toHex8 (n : ℕ) : List Char :=
  (List.range 8).map (fun i => hexDigit (n / 16 ^ (7 - i) % 16))

/-- The SHA-256 hexdigest of a byte string, as `hashlib`'s `hexdigest()`. -/
def sha256Hex (msg : List ℕ) : String :=
  ⟨(sha256Words msg).foldr (fun w acc => toHex8 w ++ acc) []⟩

/-! ## UTF-8 and JSON serialization (models of `str.encode('utf-8')` and
`json.dumps(..., sort_keys=True)` with default separators and
`ensure_ascii=True`). -/

/-- UTF-8 encoding of one character. -/
def utf8Char (c : Char) : List ℕ :=
  let n := c.toNat
  if n < 0x80 then [n]
  else if n < 0x800 then [0xc0 + n / 64, 0x80 + n % 64]
  else if n < 0x10000 then [0xe0 + n / 4096, 0x80 + n / 64 % 64, 0x80 + n % 64]
  else [0xf0 + n / 262144, 0x80 + n / 4096 % 64, 0x80 + n / 64 % 64, 0x80 + n % 64]

/-- UTF-8 bytes of a string. -/
def strBytes (s : String) : List ℕ := s.data.foldr (fun c acc => utf8Char c ++ acc) []

def hexDigit4 (n : ℕ) : List Char :=
  (List.range 4).map (fun i => hexDigit (n / 16 ^ (3 - i) % 16))

/-- JSON escaping of one character, as CPython's `json.dumps` with
`ensure_ascii=True`: printable ASCII other than `"` and `\` is kept,
the short escapes are used for the usual control characters, everything
else becomes `\uXXXX` (with surrogate pairs above the BMP). -/
def jsonEscapeChar (c : Char) : List Char :=
  if c = '"' then ['\\', '"']
  else if c = '\\' then ['\\', '\\']
  else if c = '\n' then ['\\', 'n']
  else if c = '\r' then ['\\', 'r']
  else if c = '\t' then ['\\', 't']
  else if c.toNat = 8 then ['\\', 'b']
  else if c.toNat = 12 then ['\\', 'f']
  else if 32 ≤ c.toNat ∧ c.toNat ≤ 126 then [c]
  else if c.toNat < 65536 then '\\' :: 'u' :: hexDigit4 c.toNat
  else
    let m := c.toNat - 65536
    ('\\' :: 'u' :: hexDigit4 (0xd800 + m / 1024)) ++ '\\' :: 'u' :: hexDigit4 (0xdc00 + m % 1024)

/-- A JSON string literal: quotes around the escaped characters. -/
def jsonQuote (s : String) : String :=
  ⟨'"' :: s.data.foldr (fun c acc => jsonEscapeChar c ++ acc) ['"']⟩

/-! ## Calendar events and `compute_events_hash`
(`calendar_server.py`, lines 366-382).

Events are Python dicts; the fields read by the hashed projection are the
six below, and we carry three further representative fields
(`backgroundColor`, `borderColor`, `calendarColor`) that the server
attaches for display purposes but that the hash must ignore. -/

structure Event where
  title : String
  start : String
  «end» : String
  description : String
  location : String
  calendarId : String
  backgroundColor : String
  borderColor : String
  calendarColor : String
deriving DecidableEq

/-- The projection of an event onto the fields that participate in the
hash (the dict built in the loop of `compute_events_hash`). -/
structure EventData where
  title : String
  start : String
  «end» : String
  description : String
  location : String
  calendarId : String
deriving DecidableEq

def Event.data (e : Event) : EventData :=
  ⟨e.title, e.start, e.«end», e.description, e.location, e.calendarId⟩

/-- Python's string `<`: lexicographic comparison of code points. -/
def strLtb : List Char → List Char → Bool
  | [], [] => false
  | [], _ :: _ => true
  | _ :: _, [] => false
  | a :: as, b :: bs => if a < b then true else if b < a then false else strLtb as bs

/-- The sort key comparison `(a.start, a.title) <= (b.start, b.title)`,
as Python compares tuples of strings (`x <= y` iff `not (y < x)` on the
title once the starts tie). -/
def eventLeb (a b : Event) : Bool :=
  strLtb a.start.data b.start.data ||
    (a.start == b.start && !(strLtb b.title.data a.title.data))

def eventLe (a b : Event) : Prop := eventLeb a b = true

instance decEventLe : DecidableRel eventLe := fun a b =>
  inferInstanceAs (Decidable (eventLeb a b = true))

/-- `sorted(events, key=lambda e: (e.get('start',''), e.get('title','')))`:
Python's `sorted` is a stable sort, as is insertion sort. -/
def sortEvents (l : List Event) : List Event := List.insertionSort eventLe l

/-- The canonical record list that gets serialized: events sorted by
`(start, title)`, then projected to the hashed fields. -/
def eventsData (l : List Event) : List EventData := (sortEvents l).map Event.data

/-- One record of `json.dumps(events_data, sort_keys=True)`: keys in
alphabetical order, `", "` and `": "` separators. -/
def serializeRecord (r : EventData) : String :=
  "\x7b\"calendarId\": " ++ jsonQuote r.calendarId ++
    ", \"description\": " ++ jsonQuote r.description ++
    ", \"end\": " ++ jsonQuote r.«end» ++
    ", \"location\": " ++ jsonQuote r.location ++
    ", \"start\": " ++ jsonQuote r.start ++
    ", \"title\": " ++ jsonQuote r.title ++ "\x7d"

/-- `json.dumps` of the record list. -/
def serializeEvents (l : List EventData) : String :=
  "[" ++ String.intercalate ", " (l.map serializeRecord) ++ "]"

/-- `compute_events_hash` (`calendar_server.py:366`): sort, project,
serialize to JSON, SHA-256 hexdigest of the UTF-8 bytes. -/
def compute_events_hash (l : List Event) : String :=
  sha256Hex (strBytes (serializeEvents (eventsData l)))

end ECal

namespace ECal

/-! ## Order theory for the event sort

`strLtb` is a strict lexicographic comparison on code-point lists;
the lemmas below give the standard strict-order facts used to show the
stable sort is canonical on lists with pairwise distinct keys. -/

theorem strLtb_irrefl : ∀ x : List Char, strLtb x x = false
  | [] => rfl
  | a :: as => by simp [strLtb, lt_irrefl, strLtb_irrefl as]

theorem strLtb_asymm :
    ∀ x y : List Char, strLtb x y = true → strLtb y x = true → False := by
  intro x
  induction x with
  | nil => intro y hxy hyx; cases y <;> simp [strLtb] at hxy hyx
  | cons a as ih =>
    intro y hxy hyx
    cases y with
    | nil => simp [strLtb] at hxy
    | cons b bs =>
      by_cases hab : a < b
      · have hba : ¬ b < a := lt_asymm hab
        simp [strLtb, hab, hba] at hxy hyx
      · by_cases hba : b < a
        · simp [strLtb, hab, hba] at hxy
        · simp [strLtb, hab, hba] at hxy hyx
          exact ih bs hxy hyx

theorem strLtb_trans :
    ∀ x y z : List Char, strLtb x y = true → strLtb y z = true → strLtb x z = true := by
  intro x
  induction x with
  | nil =>
    intro y z hxy hyz
    cases y with
    | nil => simp [strLtb] at hxy
    | cons b bs =>
      cases z with
      | nil => simp [strLtb] at hyz
      | cons c cs => simp [strLtb]
  | cons a as ih =>
    intro y z hxy hyz
    cases y with
    | nil => simp [strLtb] at hxy
    | cons b bs =>
      cases z with
      | nil => simp [strLtb] at hyz
      | cons c cs =>
        by_cases hab : a < b
        · by_cases hbc : b < c
          · have hac : a < c := lt_trans hab hbc
            simp [strLtb, hac]
          · by_cases hcb : c < b
            · simp [strLtb, hbc, hcb] at hyz
            · have hbc' : b = c := le_antisymm (le_of_not_lt hcb) (le_of_not_lt hbc)
              subst hbc'
              simp [strLtb, hab]
        · by_cases hba : b < a
          · simp [strLtb, hab, hba] at hxy
          · have hab' : a = b := le_antisymm (le_of_not_lt hba) (le_of_not_lt hab)
            subst hab'
            simp [strLtb, hab, hba] at hxy
            by_cases hac : a < c
            · simp [strLtb, hac]
            · by_cases hca : c < a
              · simp [strLtb, hca] at hyz
                exact absurd hyz (lt_asymm hca)
              · simp [strLtb, hac, hca] at hyz ⊢
                exact ih bs cs hxy hyz

theorem strLtb_eq_of_not :
    ∀ x y : List Char, strLtb x y = false → strLtb y x = false → x = y := by
  intro x
  induction x with
  | nil => intro y hxy _; cases y <;> simp_all [strLtb]
  | cons a as ih =>
    intro y hxy hyx
    cases y with
    | nil => simp [strLtb] at hyx
    | cons b bs =>
      by_cases hab : a < b
      · simp [strLtb, hab] at hxy
      · by_cases hba : b < a
        · simp [strLtb, hba] at hyx
        · have hab' : a = b := le_antisymm (le_of_not_lt hba) (le_of_not_lt hab)
          subst hab'
          simp [strLtb, hab, lt_irrefl] at hxy hyx
          exact congrArg (a :: ·) (ih bs hxy hyx)

/-- Strings are equal iff their character lists are. -/
theorem str_eq_of_data_eq : ∀ {s t : String}, s.data = t.data → s = t
  | ⟨_⟩, ⟨_⟩, h => congrArg String.mk h

/-- The strict version of the event key comparison. -/
def eventLtb (a b : Event) : Bool :=
  strLtb a.start.data b.start.data ||
    (a.start == b.start && strLtb a.title.data b.title.data)

def eventLt (a b : Event) : Prop := eventLtb a b = true

/-- The sort key of `compute_events_hash`. -/
def eventKey (e : Event) : String × String := (e.start, e.title)

instance : IsTotal Event eventLe := by
  constructor
  intro a b
  by_cases h1 : strLtb a.start.data b.start.data = true
  · exact Or.inl (by simp [eventLe, eventLeb, h1])
  · by_cases h2 : strLtb b.start.data a.start.data = true
    · exact Or.inr (by simp [eventLe, eventLeb, h2])
    · have hs : a.start = b.start :=
        str_eq_of_data_eq
          (strLtb_eq_of_not _ _ (Bool.not_eq_true _ ▸ h1) (Bool.not_eq_true _ ▸ h2))
      by_cases h3 : strLtb b.title.data a.title.data = true
      · refine Or.inr ?_
        have : strLtb a.title.data b.title.data = false := by
          cases h4 : strLtb a.title.data b.title.data
          · rfl
          · exact absurd (strLtb_asymm _ _ h4 h3) not_false
        simp [eventLe, eventLeb, hs, this]
      · exact Or.inl (by simp [eventLe, eventLeb, hs, h3])

instance : IsTrans Event eventLe := by
  constructor
  intro a b c hab hbc
  simp only [eventLe, eventLeb, Bool.or_eq_true, Bool.and_eq_true, beq_iff_eq,
    Bool.not_eq_true'] at hab hbc ⊢
  rcases hab with hab | ⟨habs, habt⟩
  · rcases hbc with hbc | ⟨hbcs, _⟩
    · exact Or.inl (strLtb_trans _ _ _ hab hbc)
    · exact Or.inl (hbcs ▸ hab)
  · rcases hbc with hbc | ⟨hbcs, hbct⟩
    · exact Or.inl (habs ▸ hbc)
    · refine Or.inr ⟨habs.trans hbcs, ?_⟩
      cases hca : strLtb c.title.data a.title.data
      · rfl
      · exfalso
        cases hbc2 : strLtb b.title.data c.title.data
        · have hbc' : b.title.data = c.title.data := strLtb_eq_of_not _ _ hbc2 hbct
          rw [← hbc'] at hca
          exact absurd hca (by simp [habt])
        · exact absurd (strLtb_trans _ _ _ hbc2 hca) (by simp [habt])

instance : IsAntisymm Event eventLt := by
  constructor
  intro a b hab hba
  exfalso
  simp only [eventLt, eventLtb, Bool.or_eq_true, Bool.and_eq_true, beq_iff_eq] at hab hba
  rcases hab with hab | ⟨habs, habt⟩
  · rcases hba with hba | ⟨hbas, _⟩
    · exact strLtb_asymm _ _ hab hba
    · rw [hbas] at hab; simp [strLtb_irrefl] at hab
  · rcases hba with hba | ⟨_, hbat⟩
    · rw [habs] at hba; simp [strLtb_irrefl] at hba
    · exact strLtb_asymm _ _ habt hbat

end ECal

namespace ECal

/-- A key-le comparison together with distinct keys gives the strict
comparison. -/
theorem le_and_keyne_imp_lt {a b : Event} (hle : eventLe a b)
    (hne : eventKey a ≠ eventKey b) : eventLt a b := by
  simp only [eventLe, eventLeb, Bool.or_eq_true, Bool.and_eq_true, beq_iff_eq,
    Bool.not_eq_true'] at hle
  simp only [eventLt, eventLtb, Bool.or_eq_true, Bool.and_eq_true, beq_iff_eq]
  rcases hle with h | ⟨hs, ht⟩
  · exact Or.inl h
  · refine Or.inr ⟨hs, ?_⟩
    cases h2 : strLtb a.title.data b.title.data
    · exfalso
      have : a.title = b.title := str_eq_of_data_eq (strLtb_eq_of_not _ _ h2 ht)
      exact hne (by simp [eventKey, hs, this])
    · rfl

/-- A `(start, title)`-sorted event list with pairwise distinct keys is
strictly sorted. -/
theorem sorted_lt_of_nodup {l : List Event} (hs : l.Sorted eventLe)
    (hnd : (l.map eventKey).Nodup) : l.Sorted eventLt := by
  have hk : l.Pairwise (fun a b => eventKey a ≠ eventKey b) := List.pairwise_map.mp hnd
  exact (List.Pairwise.and hs hk).imp fun h => le_and_keyne_imp_lt h.1 h.2

/-- On lists with pairwise distinct `(start, title)` keys, the stable
sort is canonical: any two permutations sort identically. -/
theorem sortEvents_eq_of_perm {l₁ l₂ : List Event} (hp : l₁.Perm l₂)
    (hnd : (l₁.map eventKey).Nodup) : sortEvents l₁ = sortEvents l₂ := by
  have hp1 : (sortEvents l₁).Perm l₁ := List.perm_insertionSort eventLe l₁
  have hp2 : (sortEvents l₂).Perm l₂ := List.perm_insertionSort eventLe l₂
  have hperm : (sortEvents l₁).Perm (sortEvents l₂) := (hp1.trans hp).trans hp2.symm
  have hnd1 : ((sortEvents l₁).map eventKey).Nodup :=
    ((hp1.map eventKey).nodup_iff).mpr hnd
  have hnd2 : ((sortEvents l₂).map eventKey).Nodup :=
    ((hperm.map eventKey).nodup_iff).mp hnd1
  exact List.eq_of_perm_of_sorted hperm
    (sorted_lt_of_nodup (List.sorted_insertionSort eventLe l₁) hnd1)
    (sorted_lt_of_nodup (List.sorted_insertionSort eventLe l₂) hnd2)

end ECal

namespace ECal

/-- The key comparison induced on the hashed projections; it agrees
definitionally with `eventLeb` through `Event.data`. -/
def dataLeb (a b : EventData) : Bool :=
  strLtb a.start.data b.start.data ||
    (a.start == b.start && !(strLtb b.title.data a.title.data))

def dataLe (a b : EventData) : Prop := dataLeb a b = true

instance decDataLe : DecidableRel dataLe := fun a b =>
  inferInstanceAs (Decidable (dataLeb a b = true))

/-- Sorting the projected records with the same key comparison. -/
def dataSort (l : List EventData) : List EventData := List.insertionSort dataLe l

theorem data_orderedInsert (a : Event) :
    ∀ l : List Event,
      (List.orderedInsert eventLe a l).map Event.data =
        List.orderedInsert dataLe a.data (l.map Event.data)
  | [] => rfl
  | b :: t => by
    by_cases h : eventLe a b
    · have h' : dataLe a.data b.data := h
      simp only [List.orderedInsert, if_pos h, if_pos h', List.map_cons]
    · have h' : ¬ dataLe a.data b.data := h
      simp only [List.orderedInsert, if_neg h, if_neg h', List.map_cons,
        data_orderedInsert a t]

/-- Sorting commutes with projecting to the hashed fields, since the key
only involves `start` and `title`. -/
theorem map_data_sortEvents :
    ∀ l : List Event, (sortEvents l).map Event.data = dataSort (l.map Event.data)
  | [] => rfl
  | a :: t => by
    simp only [sortEvents, dataSort, List.insertionSort, List.map_cons]
    rw [data_orderedInsert]
    exact congrArg _ (map_data_sortEvents t)

/-- `eventsData` only depends on the hashed projections of the input. -/
theorem eventsData_eq (l : List Event) : eventsData l = dataSort (l.map Event.data) :=
  map_data_sortEvents l

/-! ### Structural facts about the SHA-256 digest -/

theorem extendW_length : ∀ (n : ℕ) (ws : List ℕ), (extendW n ws).length = ws.length + n
  | 0, _ => rfl
  | n + 1, ws => by
    rw [extendW, extendW_length n]
    simp
    omega

theorem foldl_compressRound_length :
    ∀ (l : List (ℕ × ℕ)) (st : List ℕ), l ≠ [] → (l.foldl compressRound st).length = 8
  | [], _, h => absurd rfl h
  | [x], st, _ => rfl
  | x :: y :: t, st, _ => by
    rw [List.foldl_cons]
    exact foldl_compressRound_length (y :: t) (compressRound st x) (by simp)

theorem processBlock_length (st : List ℕ) (b : List ℕ) (h : st.length = 8) :
    (processBlock st b).length = 8 := by
  have hw : (extendW 48 (bytesToWords b)).length = (bytesToWords b).length + 48 :=
    extendW_length _ _
  have hzip : (K256.zip (extendW 48 (bytesToWords b))).length =
      min K256.length ((bytesToWords b).length + 48) := by rw [List.length_zip, hw]
  have hK : K256.length = 64 := rfl
  have hne : K256.zip (extendW 48 (bytesToWords b)) ≠ [] := by
    intro hnil
    rw [hnil] at hzip
    simp [hK] at hzip
    omega
  unfold processBlock
  rw [List.length_zipWith, foldl_compressRound_length _ _ hne, h]
  rfl

theorem foldl_processBlock_length :
    ∀ (bs : List (List ℕ)) (st : List ℕ), st.length = 8 →
      (bs.foldl processBlock st).length = 8
  | [], _, h => h
  | b :: t, st, h =>
    foldl_processBlock_length t (processBlock st b) (processBlock_length st b h)

theorem sha256Words_length (msg : List ℕ) : (sha256Words msg).length = 8 :=
  foldl_processBlock_length _ _ rfl

theorem mem_zipWith_add32_lt :
    ∀ (s t : List ℕ), ∀ x ∈ List.zipWith add32 s t, x < 2 ^ 32
  | [], _, x, hx => by simp at hx
  | _ :: _, [], x, hx => by simp at hx
  | a :: as, b :: bs, x, hx => by
    rcases List.mem_cons.mp hx with h | h
    · subst h
      exact Nat.mod_lt _ (by norm_num)
    · exact mem_zipWith_add32_lt as bs x h

theorem foldl_processBlock_lt :
    ∀ (bs : List (List ℕ)) (st : List ℕ), (∀ x ∈ st, x < 2 ^ 32) →
      ∀ x ∈ bs.foldl processBlock st, x < 2 ^ 32
  | [], _, h => h
  | b :: t, st, _ =>
    foldl_processBlock_lt t (processBlock st b) (mem_zipWith_add32_lt st _)

theorem sha256Words_lt (msg : List ℕ) : ∀ x ∈ sha256Words msg, x < 2 ^ 32 :=
  foldl_processBlock_lt _ initH256 (by decide)

end ECal

namespace ECal

theorem getD_eq_elem {α : Type} (l : List α) (d : α) {i : ℕ} (h : i < l.length) :
    l.getD i d = l[i] := by
  simp [List.getD_eq_getElem?_getD, List.getElem?_eq_getElem h]

/-- Two 8-element lists of 32-bit words agreeing entrywise mod `2^32`
are equal. -/
theorem list_eq_of_bounded_getD_mod (L M : List ℕ) (hL : L.length = 8) (hM : M.length = 8)
    (hLb : ∀ x ∈ L, x < 2 ^ 32) (hMb : ∀ x ∈ M, x < 2 ^ 32)
    (h : ∀ i : ℕ, i < 8 → L.getD i 0 % 2 ^ 32 = M.getD i 0 % 2 ^ 32) : L = M := by
  apply List.ext_getElem (hL.trans hM.symm)
  intro i h1 h2
  have hi : i < 8 := hL ▸ h1
  have hval := h i hi
  rw [getD_eq_elem _ _ h1, getD_eq_elem _ _ h2] at hval
  rwa [Nat.mod_eq_of_lt (hLb _ (List.getElem_mem h1)),
    Nat.mod_eq_of_lt (hMb _ (List.getElem_mem h2))] at hval

/-- An event family with pairwise distinct titles, used to exhibit a
SHA-256 collision by cardinality. -/
def pigeonEvent (n : ℕ) : Event :=
  ⟨⟨List.replicate n 'a'⟩, "", "", "", "", "", "", "", ""⟩

/-- The digest words of the fingerprint of `[pigeonEvent n]`. -/
def pigeonWords (n : ℕ) : List ℕ :=
  sha256Words (strBytes (serializeEvents (eventsData [pigeonEvent n])))

/-- The digest words of `[pigeonEvent k]` as a member of a finite type. -/
def pigeonFin (k : ℕ) (i : Fin 8) : Fin (2 ^ 32) :=
  ⟨(pigeonWords k).getD i.val 0 % 2 ^ 32, Nat.mod_lt _ (by norm_num)⟩

theorem pigeonFin_val (k : ℕ) (i : Fin 8) :
    (pigeonFin k i).val = (pigeonWords k).getD i.val 0 % 2 ^ 32 := rfl

set_option maxRecDepth 100000 in
set_option maxHeartbeats 2000000 in
/-- C1: as stated the claim is false: `compute_events_hash` sorts only by
`(start, title)` with a stable sort, so two events that tie on that key
but differ in `description` are serialized in input order, and swapping
them changes the hash.  The two lists below are permutations of each
other yet hash differently. -/
theorem claim_C1_counterexample :
    ([⟨"t", "s", "", "a", "", "", "", "", ""⟩, ⟨"t", "s", "", "b", "", "", "", "", ""⟩] :
        List Event).Perm
        [⟨"t", "s", "", "b", "", "", "", "", ""⟩, ⟨"t", "s", "", "a", "", "", "", "", ""⟩] ∧
      compute_events_hash
          [⟨"t", "s", "", "a", "", "", "", "", ""⟩, ⟨"t", "s", "", "b", "", "", "", "", ""⟩] ≠
        compute_events_hash
          [⟨"t", "s", "", "b", "", "", "", "", ""⟩, ⟨"t", "s", "", "a", "", "", "", "", ""⟩] :=
  ⟨by decide, by decide⟩

/-- C1 (amended): reordering the input event list never changes the
fingerprint, provided no two events of the list share the same
`(start, title)` sort key. -/
theorem claim_C1_main (l₁ l₂ : List Event) (hp : l₁.Perm l₂)
    (hnd : (l₁.map eventKey).Nodup) :
    compute_events_hash l₁ = compute_events_hash l₂ := by
  unfold compute_events_hash eventsData
  rw [sortEvents_eq_of_perm hp hnd]

/-- C1 witness: a concrete permuted pair with distinct keys on which the
amended theorem applies. -/
theorem claim_C1_witness :
    compute_events_hash
        [⟨"t", "r", "", "a", "", "", "", "", ""⟩, ⟨"u", "s", "", "b", "", "", "", "", ""⟩] =
      compute_events_hash
        [⟨"u", "s", "", "b", "", "", "", "", ""⟩, ⟨"t", "r", "", "a", "", "", "", "", ""⟩] :=
  claim_C1_main _ _ (by decide) (by decide)

set_option maxHeartbeats 1000000 in
/-- C6: the universally quantified second half of the claim ("changing
any event's title changes the hash") is refuted by cardinality: the
digest ranges over finitely many values while titles are unbounded, so
some pair of lists differing only in one title collides. -/
theorem claim_C6_counterexample :
    ¬ (∀ (p s : List Event) (e : Event) (t' : String), t' ≠ e.title →
        compute_events_hash (p ++ e :: s) ≠
          compute_events_hash (p ++ { e with title := t' } :: s)) := by
  intro hclaim
  have hpw : ∀ k : ℕ, (pigeonWords k).length = 8 := fun _ => sha256Words_length _
  have hpb : ∀ k : ℕ, ∀ x ∈ pigeonWords k, x < 2 ^ 32 := fun _ => sha256Words_lt _
  obtain ⟨m, n, hmn, hfe⟩ := Finite.exists_ne_map_eq_of_infinite pigeonFin
  have hw : pigeonWords m = pigeonWords n := by
    refine list_eq_of_bounded_getD_mod _ _ (hpw m) (hpw n) (hpb m) (hpb n) ?_
    intro i hi
    have h1 := congrArg Fin.val (congrFun hfe ⟨i, hi⟩)
    rw [pigeonFin_val, pigeonFin_val] at h1
    exact h1
  have hhash : compute_events_hash [pigeonEvent m] = compute_events_hash [pigeonEvent n] := by
    have h1 : compute_events_hash [pigeonEvent m] =
        ⟨(pigeonWords m).foldr (fun w acc => toHex8 w ++ acc) []⟩ := rfl
    have h2 : compute_events_hash [pigeonEvent n] =
        ⟨(pigeonWords n).foldr (fun w acc => toHex8 w ++ acc) []⟩ := rfl
    rw [h1, h2, hw]
  have htne : (pigeonEvent n).title ≠ (pigeonEvent m).title := by
    intro he
    apply hmn
    have := congrArg (fun s : String => s.data.length) he
    simpa [pigeonEvent] using this.symm
  exact hclaim [] [] (pigeonEvent m) (pigeonEvent n).title htne hhash

set_option maxRecDepth 100000 in
set_option maxHeartbeats 2000000 in
/-- C6 (amended): the fingerprint depends only on each event's `title`,
`start`, `end`, `description`, `location` and `calendarId` fields; and
changing any event's title always changes the canonical sorted record
list that is serialized and hashed (the hash itself then changes unless
SHA-256 collides, as it does change on the concrete pair below). -/
theorem claim_C6_main :
    (∀ l₁ l₂ : List Event, l₁.map Event.data = l₂.map Event.data →
        compute_events_hash l₁ = compute_events_hash l₂) ∧
      (∀ (p s : List Event) (e : Event) (t' : String), t' ≠ e.title →
          eventsData (p ++ e :: s) ≠ eventsData (p ++ { e with title := t' } :: s)) ∧
      compute_events_hash [⟨"x", "s", "", "", "", "", "", "", ""⟩] ≠
        compute_events_hash [⟨"y", "s", "", "", "", "", "", "", ""⟩] := by
  refine ⟨?_, ?_, ?_⟩
  · intro l₁ l₂ h
    unfold compute_events_hash
    rw [eventsData_eq, eventsData_eq, h]
  · intro p s e t' hne heq
    have hr : e.data ≠ ({ e with title := t' } : Event).data := by
      intro h
      exact hne (congrArg EventData.title h).symm
    have h1 : (eventsData (p ++ e :: s)).count e.data =
        ((p ++ e :: s).map Event.data).count e.data :=
      List.Perm.count_eq ((List.perm_insertionSort eventLe _).map Event.data) e.data
    have h2 : (eventsData (p ++ { e with title := t' } :: s)).count e.data =
        ((p ++ { e with title := t' } :: s).map Event.data).count e.data :=
      List.Perm.count_eq ((List.perm_insertionSort eventLe _).map Event.data) e.data
    rw [heq, h2] at h1
    simp only [List.map_append, List.map_cons, List.count_append, List.count_cons_self,
      List.count_cons_of_ne hr] at h1
    omega
  · decide

/-- C6 witness: two concrete singleton lists that agree on the hashed
fields but carry different display colors hash identically. -/
theorem claim_C6_witness :
    compute_events_hash [⟨"t", "s", "", "", "", "", "blue", "x", "1"⟩] =
      compute_events_hash [⟨"t", "s", "", "", "", "", "red", "y", "2"⟩] :=
  claim_C6_main.1 _ _ rfl

end ECal

namespace ECal

/-! ## `display_image` geometry (`display_image.py`, lines 66-202)

The vendor device module `epd13in3E` only contributes the constants
`EPD_WIDTH`/`EPD_HEIGHT`, so the display size is a pair of parameters
`W H` here.  Scale factors (Python floats) are modelled as exact
rationals; `int()` truncation of the nonnegative products is
`Int.toNat ∘ Int.floor`; Python's floor division `//` on possibly
negative integers is `Int.fdiv`.  The device I/O (init, clear, buffer
display, sleep) has no bearing on the geometry and is not modelled. -/

/-- `min(display_width / w, display_height / h)`. -/
def scaleFit (w h W H : ℕ) : ℚ := min ((W : ℚ) / w) ((H : ℚ) / h)

/-- `max(display_width / w, display_height / h)`. -/
def scaleFill (w h W H : ℕ) : ℚ := max ((W : ℚ) / w) ((H : ℚ) / h)

/-- `area_no_rotation = (img_width * scale) * (img_height * scale)`. -/
def areaNoRotation (w h W H : ℕ) : ℚ :=
  (w * scaleFit w h W H) * (h * scaleFit w h W H)

/-- `area_with_rotation`, where the scale is computed with the image
dimensions swapped. -/
def areaWithRotation (w h W H : ℕ) : ℚ :=
  (h * scaleFit h w W H) * (w * scaleFit h w W H)

/-- The rotation angle chosen when auto rotation fires: 270 for a
portrait image on a non-portrait display, 90 for a non-portrait image
on a portrait display, and the 270 fallback otherwise. -/
def autoRotationAngle (w h W H : ℕ) : ℕ :=
  if h > w ∧ ¬ H > W then 270
  else if ¬ h > w ∧ H > W then 90
  else 270

/-- The rotation applied by `rotation_mode` (`none` when `auto` declines
to rotate); any unknown mode falls back to landscape's 270. -/
def modeRotation (mode : String) (w h W H : ℕ) : Option ℕ :=
  if mode = "auto" then
    if areaWithRotation w h W H > areaNoRotation w h W H * (21 / 20) then
      some (autoRotationAngle w h W H)
    else none
  else if mode = "landscape" then some 270
  else if mode = "portrait" then some 90
  else some 270

/-- `Image.rotate(angle, expand=True)` at the size level for the right
angles used by the script: 90 and 270 swap the dimensions. -/
def rotatedSize (sz : ℕ × ℕ) (angle : ℕ) : ℕ × ℕ :=
  if angle % 180 = 90 then (sz.2, sz.1) else sz

/-- The outcome of the scaling branch (`display_image.py`, lines
157-202): the chosen scale factor, the truncated resize target, the
center-crop data (fill mode) and the paste offsets (fit mode), and the
final image size. -/
structure ScaleResult where
  scale : ℚ
  newW : ℕ
  newH : ℕ
  cropX : ℤ
  cropY : ℤ
  cropW : ℕ
  cropH : ℕ
  pasteX : ℤ
  pasteY : ℤ
  finalW : ℕ
  finalH : ℕ
deriving DecidableEq

/-- The scaling branch: scale by `max` (zoom-to-fit) or `min` (fit
without crop), truncate the new size, then center-crop to the display
(zoom) or center-paste on a white display-sized canvas (fit). -/
def scaleStep (w h W H : ℕ) (zoom : Bool) : ScaleResult :=
  let s : ℚ := if zoom then scaleFill w h W H else scaleFit w h W H
  let newW : ℕ := (⌊(w : ℚ) * s⌋).toNat
  let newH : ℕ := (⌊(h : ℚ) * s⌋).toNat
  if zoom then
    let cropX : ℤ := max 0 (((newW : ℤ) - W).fdiv 2)
    let cropY : ℤ := max 0 (((newH : ℤ) - H).fdiv 2)
    let cropW : ℕ := min W newW
    let cropH : ℕ := min H newH
    ⟨s, newW, newH, cropX, cropY, cropW, cropH, 0, 0, cropW, cropH⟩
  else
    let pasteX : ℤ := ((W : ℤ) - newW).fdiv 2
    let pasteY : ℤ := ((H : ℤ) - newH).fdiv 2
    ⟨s, newW, newH, 0, 0, 0, 0, pasteX, pasteY, W, H⟩

/-- The observable outcome of `display_image`: whether a mode rotation
was applied and which, the effective zoom flag at the scaling step,
whether the scaling branch ran, and the final image size handed to the
driver. -/
structure DisplayOutcome where
  rotated : Bool
  angle : Option ℕ
  zoomUsed : Bool
  scaled : Bool
  finalW : ℕ
  finalH : ℕ
deriving DecidableEq

/-- The optional `test_rotation` applied before the mode rotation. -/
def testRotatedSize (tr : Option ℕ) (w h : ℕ) : ℕ × ℕ :=
  match tr with
  | some a => rotatedSize (w, h) a
  | none => (w, h)

/-- `display_image` (`display_image.py`, lines 66-202) at the geometry
level: optional test rotation, mode rotation (with auto-zoom forcing on
rotation), then the scaling branch when the size differs from the
display. -/
def display_image (w h W H : ℕ) (zoom_to_fit : Bool) (test_rotation : Option ℕ)
    (rotation_mode : String) (auto_zoom_after_rotation : Bool) : DisplayOutcome :=
  match modeRotation rotation_mode (testRotatedSize test_rotation w h).1
      (testRotatedSize test_rotation w h).2 W H with
  | some a =>
    if rotatedSize (testRotatedSize test_rotation w h) a = (W, H) then
      ⟨true, some a, if auto_zoom_after_rotation then true else zoom_to_fit, false,
        (rotatedSize (testRotatedSize test_rotation w h) a).1,
        (rotatedSize (testRotatedSize test_rotation w h) a).2⟩
    else
      ⟨true, some a, if auto_zoom_after_rotation then true else zoom_to_fit, true,
        (scaleStep (rotatedSize (testRotatedSize test_rotation w h) a).1
          (rotatedSize (testRotatedSize test_rotation w h) a).2 W H
          (if auto_zoom_after_rotation then true else zoom_to_fit)).finalW,
        (scaleStep (rotatedSize (testRotatedSize test_rotation w h) a).1
          (rotatedSize (testRotatedSize test_rotation w h) a).2 W H
          (if auto_zoom_after_rotation then true else zoom_to_fit)).finalH⟩
  | none =>
    if testRotatedSize test_rotation w h = (W, H) then
      ⟨false, none, zoom_to_fit, false, (testRotatedSize test_rotation w h).1,
        (testRotatedSize test_rotation w h).2⟩
    else
      ⟨false, none, zoom_to_fit, true,
        (scaleStep (testRotatedSize test_rotation w h).1
          (testRotatedSize test_rotation w h).2 W H zoom_to_fit).finalW,
        (scaleStep (testRotatedSize test_rotation w h).1
          (testRotatedSize test_rotation w h).2 W H zoom_to_fit).finalH⟩

end ECal

namespace ECal

theorem scaleFit_nonneg (w h W H : ℕ) : 0 ≤ scaleFit w h W H :=
  le_min (by positivity) (by positivity)

/-- When the image and the display have the same orientation, rotating
cannot increase the covered area. -/
theorem areaWith_le_of_same_orientation (w h W H : ℕ) (hw : 0 < w) (hh : 0 < h)
    (hsame : (w < h ∧ W < H) ∨ (h ≤ w ∧ H ≤ W)) :
    areaWithRotation w h W H ≤ areaNoRotation w h W H := by
  have hw' : (0 : ℚ) < w := by exact_mod_cast hw
  have hh' : (0 : ℚ) < h := by exact_mod_cast hh
  have hs : scaleFit h w W H ≤ scaleFit w h W H := by
    rcases hsame with ⟨h1, h2⟩ | ⟨h1, h2⟩
    · have h1' : (w : ℚ) ≤ h := by exact_mod_cast le_of_lt h1
      have h2' : (W : ℚ) ≤ H := by exact_mod_cast le_of_lt h2
      have c1 : (W : ℚ) / h ≤ (W : ℚ) / w := by gcongr
      have c2 : (W : ℚ) / h ≤ (H : ℚ) / h := by gcongr
      exact le_trans (min_le_left _ _) (le_min c1 c2)
    · have h1' : (h : ℚ) ≤ w := by exact_mod_cast h1
      have h2' : (H : ℚ) ≤ W := by exact_mod_cast h2
      have c1 : (H : ℚ) / w ≤ (H : ℚ) / h := by gcongr
      have c2 : (H : ℚ) / w ≤ (W : ℚ) / w := by gcongr
      exact le_trans (min_le_right _ _) (le_min c2 c1)
  have h0 : 0 ≤ scaleFit h w W H := scaleFit_nonneg h w W H
  have hsq : scaleFit h w W H * scaleFit h w W H ≤
      scaleFit w h W H * scaleFit w h W H := mul_self_le_mul_self h0 hs
  unfold areaWithRotation areaNoRotation
  calc (h * scaleFit h w W H) * (w * scaleFit h w W H)
      = (w * h : ℚ) * (scaleFit h w W H * scaleFit h w W H) := by ring
    _ ≤ (w * h : ℚ) * (scaleFit w h W H * scaleFit w h W H) := by
        apply mul_le_mul_of_nonneg_left hsq (by positivity)
    _ = (w * scaleFit w h W H) * (h * scaleFit w h W H) := by ring

theorem areaNoRotation_nonneg (w h W H : ℕ) : 0 ≤ areaNoRotation w h W H := by
  unfold areaNoRotation
  have := scaleFit_nonneg w h W H
  positivity

/-- Auto rotation never fires when the image and display orientations
already agree. -/
theorem auto_no_fire_of_same_orientation (w h W H : ℕ) (hw : 0 < w) (hh : 0 < h)
    (hsame : (w < h ∧ W < H) ∨ (h ≤ w ∧ H ≤ W)) :
    ¬ areaNoRotation w h W H * (21 / 20) < areaWithRotation w h W H := by
  intro hlt
  have h1 := areaWith_le_of_same_orientation w h W H hw hh hsame
  have h2 : areaNoRotation w h W H ≤ areaNoRotation w h W H * (21 / 20) :=
    le_mul_of_one_le_right (areaNoRotation_nonneg w h W H) (by norm_num)
  linarith

set_option maxHeartbeats 1000000 in
/-- C2: with `rotation_mode='auto'`, `display_image` rotates iff the
covered area with rotation strictly exceeds 1.05 times the unrotated
covered area (ties never rotate), and whenever it does fire the image
and display orientations are mismatched, with a portrait image on a
non-portrait display rotated 270° and a non-portrait image on a
portrait display rotated 90°. -/
theorem claim_C2_main (w h W H : ℕ) (hw : 0 < w) (hh : 0 < h) :
    ((∃ a, modeRotation "auto" w h W H = some a) ↔
        areaNoRotation w h W H * (21 / 20) < areaWithRotation w h W H) ∧
      ∀ a, modeRotation "auto" w h W H = some a →
        (w < h ∧ H ≤ W ∧ a = 270) ∨ (h ≤ w ∧ W < H ∧ a = 90) := by
  have hunfold : modeRotation "auto" w h W H =
      if areaNoRotation w h W H * (21 / 20) < areaWithRotation w h W H then
        some (autoRotationAngle w h W H)
      else none := by
    unfold modeRotation
    rw [if_pos rfl]
  constructor
  · rw [hunfold]
    split_ifs with hfire
    · exact ⟨fun _ => hfire, fun _ => ⟨_, rfl⟩⟩
    · exact ⟨fun ⟨a, ha⟩ => absurd ha (by simp), fun hf => absurd hf hfire⟩
  · intro a ha
    rw [hunfold] at ha
    have hfire : areaNoRotation w h W H * (21 / 20) < areaWithRotation w h W H := by
      by_contra hn
      rw [if_neg hn] at ha
      exact Option.noConfusion ha
    rw [if_pos hfire] at ha
    rcases Nat.lt_or_ge w h with h1 | h1 <;> rcases Nat.lt_or_ge W H with h2 | h2
    · exact absurd hfire (auto_no_fire_of_same_orientation w h W H hw hh (Or.inl ⟨h1, h2⟩))
    · left
      refine ⟨h1, h2, ?_⟩
      have hang : autoRotationAngle w h W H = 270 := by
        unfold autoRotationAngle
        rw [if_pos ⟨h1, by omega⟩]
      rw [hang] at ha
      exact (Option.some.injEq _ _ ▸ ha).symm
    · right
      refine ⟨h1, h2, ?_⟩
      have hang : autoRotationAngle w h W H = 90 := by
        unfold autoRotationAngle
        rw [if_neg (by omega), if_pos ⟨by omega, h2⟩]
      rw [hang] at ha
      exact (Option.some.injEq _ _ ▸ ha).symm
    · exact absurd hfire (auto_no_fire_of_same_orientation w h W H hw hh (Or.inr ⟨h1, h2⟩))

/-- C2 witness: the theorem applied at the concrete 600×800 image on the
960×680 display. -/
theorem claim_C2_witness :
    ((∃ a, modeRotation "auto" 600 800 960 680 = some a) ↔
        areaNoRotation 600 800 960 680 * (21 / 20) < areaWithRotation 600 800 960 680) ∧
      ∀ a, modeRotation "auto" 600 800 960 680 = some a →
        (600 < 800 ∧ 680 ≤ 960 ∧ a = 270) ∨ (800 ≤ 600 ∧ 960 < 680 ∧ a = 90) :=
  claim_C2_main 600 800 960 680 (by norm_num) (by norm_num)

end ECal

namespace ECal

theorem fill_newW_ge (w h W H : ℕ) (hw : 0 < w) :
    W ≤ (⌊(w : ℚ) * scaleFill w h W H⌋).toNat := by
  have hw' : (0 : ℚ) < w := by exact_mod_cast hw
  have hle : (W : ℚ) ≤ (w : ℚ) * scaleFill w h W H := by
    have hcancel : (w : ℚ) * ((W : ℚ) / w) = W := by field_simp
    calc (W : ℚ) = (w : ℚ) * ((W : ℚ) / w) := hcancel.symm
      _ ≤ (w : ℚ) * scaleFill w h W H :=
          mul_le_mul_of_nonneg_left (le_max_left _ _) (le_of_lt hw')
  have h2 : (W : ℤ) ≤ ⌊(w : ℚ) * scaleFill w h W H⌋ := by
    have := Int.floor_mono hle
    rwa [Int.floor_natCast] at this
  have h3 := Int.toNat_le_toNat h2
  rwa [Int.toNat_natCast] at h3

theorem fill_newH_ge (w h W H : ℕ) (hh : 0 < h) :
    H ≤ (⌊(h : ℚ) * scaleFill w h W H⌋).toNat := by
  have hh' : (0 : ℚ) < h := by exact_mod_cast hh
  have hle : (H : ℚ) ≤ (h : ℚ) * scaleFill w h W H := by
    have hcancel : (h : ℚ) * ((H : ℚ) / h) = H := by field_simp
    calc (H : ℚ) = (h : ℚ) * ((H : ℚ) / h) := hcancel.symm
      _ ≤ (h : ℚ) * scaleFill w h W H :=
          mul_le_mul_of_nonneg_left (le_max_right _ _) (le_of_lt hh')
  have h2 : (H : ℤ) ≤ ⌊(h : ℚ) * scaleFill w h W H⌋ := by
    have := Int.floor_mono hle
    rwa [Int.floor_natCast] at this
  have h3 := Int.toNat_le_toNat h2
  rwa [Int.toNat_natCast] at h3

theorem fit_newW_le (w h W H : ℕ) (hw : 0 < w) :
    (⌊(w : ℚ) * scaleFit w h W H⌋).toNat ≤ W := by
  have hw' : (0 : ℚ) < w := by exact_mod_cast hw
  have hle : (w : ℚ) * scaleFit w h W H ≤ W := by
    have hcancel : (w : ℚ) * ((W : ℚ) / w) = W := by field_simp
    calc (w : ℚ) * scaleFit w h W H ≤ (w : ℚ) * ((W : ℚ) / w) :=
          mul_le_mul_of_nonneg_left (min_le_left _ _) (le_of_lt hw')
      _ = W := hcancel
  have h2 : ⌊(w : ℚ) * scaleFit w h W H⌋ ≤ (W : ℤ) := by
    have := Int.floor_mono hle
    rwa [Int.floor_natCast] at this
  have h3 := Int.toNat_le_toNat h2
  rwa [Int.toNat_natCast] at h3

theorem fit_newH_le (w h W H : ℕ) (hh : 0 < h) :
    (⌊(h : ℚ) * scaleFit w h W H⌋).toNat ≤ H := by
  have hh' : (0 : ℚ) < h := by exact_mod_cast hh
  have hle : (h : ℚ) * scaleFit w h W H ≤ H := by
    have hcancel : (h : ℚ) * ((H : ℚ) / h) = H := by field_simp
    calc (h : ℚ) * scaleFit w h W H ≤ (h : ℚ) * ((H : ℚ) / h) :=
          mul_le_mul_of_nonneg_left (min_le_right _ _) (le_of_lt hh')
      _ = H := hcancel
  have h2 : ⌊(h : ℚ) * scaleFit w h W H⌋ ≤ (H : ℤ) := by
    have := Int.floor_mono hle
    rwa [Int.floor_natCast] at this
  have h3 := Int.toNat_le_toNat h2
  rwa [Int.toNat_natCast] at h3

/-- C3: whenever the (possibly rotated) image size differs from the
frame, the scale factor is `min(W/w, H/h)` in fit mode and
`max(W/w, H/h)` in fill mode; the scaled sizes are floor-truncated; in
fill mode the crop offsets are 0-clamped floor-division centers and the
result is exactly `(W, H)`; in fit mode the image is pasted at
floor-division-centered nonnegative offsets onto the `(W, H)` canvas
with no cropping (`newW ≤ W`, `newH ≤ H`), so both modes deliver
exactly `(W, H)`. -/
theorem claim_C3_main (w h W H : ℕ) (hw : 0 < w) (hh : 0 < h)
    (_hne : (w, h) ≠ (W, H)) :
    ((scaleStep w h W H false).scale = scaleFit w h W H ∧
      (scaleStep w h W H true).scale = scaleFill w h W H) ∧
    (∀ z : Bool,
      (scaleStep w h W H z).newW = (⌊(w : ℚ) * (scaleStep w h W H z).scale⌋).toNat ∧
      (scaleStep w h W H z).newH = (⌊(h : ℚ) * (scaleStep w h W H z).scale⌋).toNat) ∧
    ((scaleStep w h W H true).cropX =
        max 0 ((((scaleStep w h W H true).newW : ℤ) - W).fdiv 2) ∧
      (scaleStep w h W H true).cropY =
        max 0 ((((scaleStep w h W H true).newH : ℤ) - H).fdiv 2) ∧
      (scaleStep w h W H true).finalW = W ∧ (scaleStep w h W H true).finalH = H) ∧
    ((scaleStep w h W H false).pasteX =
        ((W : ℤ) - (scaleStep w h W H false).newW).fdiv 2 ∧
      (scaleStep w h W H false).pasteY =
        ((H : ℤ) - (scaleStep w h W H false).newH).fdiv 2 ∧
      0 ≤ (scaleStep w h W H false).pasteX ∧ 0 ≤ (scaleStep w h W H false).pasteY ∧
      (scaleStep w h W H false).newW ≤ W ∧ (scaleStep w h W H false).newH ≤ H ∧
      (scaleStep w h W H false).finalW = W ∧ (scaleStep w h W H false).finalH = H) := by
  refine ⟨⟨rfl, rfl⟩, fun z => by cases z <;> exact ⟨rfl, rfl⟩, ⟨rfl, rfl, ?_, ?_⟩,
    rfl, rfl, ?_, ?_, ?_, ?_, rfl, rfl⟩
  · show min W ((⌊(w : ℚ) * scaleFill w h W H⌋).toNat) = W
    exact Nat.min_eq_left (fill_newW_ge w h W H hw)
  · show min H ((⌊(h : ℚ) * scaleFill w h W H⌋).toNat) = H
    exact Nat.min_eq_left (fill_newH_ge w h W H hh)
  · show (0 : ℤ) ≤ ((W : ℤ) - (⌊(w : ℚ) * scaleFit w h W H⌋).toNat).fdiv 2
    apply Int.fdiv_nonneg _ (by norm_num)
    have := fit_newW_le w h W H hw
    omega
  · show (0 : ℤ) ≤ ((H : ℤ) - (⌊(h : ℚ) * scaleFit w h W H⌋).toNat).fdiv 2
    apply Int.fdiv_nonneg _ (by norm_num)
    have := fit_newH_le w h W H hh
    omega
  · exact fit_newW_le w h W H hw
  · exact fit_newH_le w h W H hh

/-- C3 witness: the theorem applied to a 123×457 image on a 960×680
frame. -/
theorem claim_C3_witness :
    (scaleStep 123 457 960 680 true).finalW = 960 ∧
      (scaleStep 123 457 960 680 false).finalW = 960 ∧
      (scaleStep 123 457 960 680 false).newW ≤ 960 := by
  obtain ⟨-, -, ⟨-, -, hfw, -⟩, -, -, -, -, hnw, -, hfw2, -⟩ :=
    claim_C3_main 123 457 960 680 (by norm_num) (by norm_num) (by decide)
  exact ⟨hfw, hfw2, hnw⟩

end ECal

namespace ECal

/-- C4: `rotation_mode='landscape'` always rotates exactly 270°
counterclockwise and `'portrait'` always rotates exactly 90°
counterclockwise, independently of the image shape; any other string
besides the three known modes falls back to the landscape 270°
rotation and never to "no rotation". -/
theorem claim_C4_main (mode : String) (w h W H : ℕ) :
    modeRotation "landscape" w h W H = some 270 ∧
      modeRotation "portrait" w h W H = some 90 ∧
      (mode ≠ "landscape" → mode ≠ "portrait" → mode ≠ "auto" →
        modeRotation mode w h W H = some 270) := by
  refine ⟨rfl, rfl, ?_⟩
  intro h1 h2 h3
  unfold modeRotation
  rw [if_neg h3, if_neg h1, if_neg h2]

/-- C4 witness: the unknown-mode fallback at a concrete mode string and
image/display sizes. -/
theorem claim_C4_witness : modeRotation "diagonal" 300 500 960 680 = some 270 :=
  (claim_C4_main "diagonal" 300 500 960 680).2.2 (by decide) (by decide) (by decide)

set_option maxHeartbeats 1000000 in
/-- C5: whenever `display_image` applies a mode rotation (landscape,
portrait, auto, or the unknown-mode fallback) and auto-zoom was not
disabled, the scaling step runs in fill (zoom-to-fit) mode; and the
concrete 600×800 portrait image on the 960×680 landscape frame with
`rotation_mode='auto'` is rotated 270°, zoomed, and delivered at
exactly 960×680. -/
theorem claim_C5_main :
    (∀ (w h W H : ℕ) (zoom : Bool) (tr : Option ℕ) (mode : String),
        (display_image w h W H zoom tr mode true).rotated = true →
          (display_image w h W H zoom tr mode true).zoomUsed = true) ∧
      display_image 600 800 960 680 false none "auto" true =
        ⟨true, some 270, true, true, 960, 680⟩ := by
  constructor
  · intro w h W H zoom tr mode
    unfold display_image
    split
    · intro _
      split <;> rfl
    · intro hr
      split at hr <;> simp at hr
  · have hmode : modeRotation "auto" 600 800 960 680 = some 270 := by
      unfold modeRotation autoRotationAngle areaWithRotation areaNoRotation scaleFit
      norm_num
    have hscale : scaleStep 800 600 960 680 true =
        ⟨6 / 5, 960, 720, 0, 20, 960, 680, 0, 0, 960, 680⟩ := by
      unfold scaleStep scaleFill
      norm_num
      decide
    unfold display_image
    simp only [testRotatedSize, hmode, rotatedSize, hscale]
    norm_num [hscale]

/-- C5 witness: the universal half of the theorem applied at the
concrete auto-mode scenario, which does rotate. -/
theorem claim_C5_witness :
    (display_image 600 800 960 680 false none "auto" true).zoomUsed = true := by
  apply claim_C5_main.1 600 800 960 680 false none "auto"
  rw [claim_C5_main.2]

end ECal

namespace ECal

/-! ## Screenshot post-processing
(`generate_calendar_screenshot`, `calendar_server.py`, lines 210-332)

An image is its dimensions plus a total pixel function (PIL's
`img.load()` accessor); the whitespace detection only ever reads pixels
inside the image.  Ratios (Python floats) are exact rationals. -/

/-- A decoded RGB raster. -/
structure Img where
  width : ℕ
  height : ℕ
  px : ℕ → ℕ → ℕ × ℕ × ℕ

/-- `sample_step = max(1, actual_width // 50)`. -/
def sampleStep (w : ℕ) : ℕ := max 1 (w / 50)

/-- `range(0, actual_width, sample_step)`. -/
def sampleXs (w : ℕ) : List ℕ :=
  List.range' 0 ((w + sampleStep w - 1) / sampleStep w) (sampleStep w)

/-- A pixel is white when all three channels exceed the threshold 240. -/
def isWhitePx (p : ℕ × ℕ × ℕ) : Bool :=
  decide (240 < p.1) && decide (240 < p.2.1) && decide (240 < p.2.2)

def sampledCount (img : Img) : ℕ := (sampleXs img.width).length

def whiteCount (img : Img) (y : ℕ) : ℕ :=
  ((sampleXs img.width).filter fun x => isWhitePx (img.px x y)).length

def nonWhiteCount (img : Img) (y : ℕ) : ℕ :=
  ((sampleXs img.width).filter fun x => !isWhitePx (img.px x y)).length

/-- `non_white_ratio`, with the `sampled_pixels > 0` guard. -/
def nonWhiteRatio (img : Img) (y : ℕ) : ℚ :=
  if 0 < sampledCount img then (nonWhiteCount img y : ℚ) / sampledCount img else 0

/-- `white_ratio`, with the same guard. -/
def whiteRatio (img : Img) (y : ℕ) : ℚ :=
  if 0 < sampledCount img then (whiteCount img y : ℚ) / sampledCount img else 0

/-- A row has content when at least 2% of its sampled pixels are
non-white. -/
def isContentRow (img : Img) (y : ℕ) : Bool := decide ((2 / 100 : ℚ) ≤ nonWhiteRatio img y)

/-- A row counts as white for the run detection when strictly more than
90% of its sampled pixels are white. -/
def isWhiteRow (img : Img) (y : ℕ) : Bool := decide ((90 / 100 : ℚ) < whiteRatio img y)

/-- `min(400, actual_height)`. -/
def rowsToCheck (h : ℕ) : ℕ := min 400 h

/-- The scanned rows `h-1, h-2, ..., h-n` (used with `n ≤ h`), matching
`range(h-1, max(-1, h-n-1), -1)`. -/
def descRows : ℕ → ℕ → List ℕ
  | _, 0 => []
  | h, n + 1 => (h - 1) :: descRows (h - 1) n

/-- The first (bottom-up) row whose non-white ratio reaches 2%. -/
def lastContentRow (img : Img) : Option ℕ :=
  (descRows img.height (rowsToCheck img.height)).find? (isContentRow img)

/-- The consecutive-white-rows loop, parametrized by the row predicate:
counter `c`, trigger when it reaches 3, boundary `y + 1`. -/
def runScanP (p : ℕ → Bool) : List ℕ → ℕ → Option ℕ
  | [], _ => none
  | y :: ys, c =>
    if p y then
      if 3 ≤ c + 1 then some (y + 1) else runScanP p ys (c + 1)
    else runScanP p ys 0

/-- The `bottom_crop` produced by the consecutive-white-rows scan. -/
def whiteRunBoundary (img : Img) : Option ℕ :=
  runScanP (isWhiteRow img) (descRows img.height (rowsToCheck img.height)) 0

/-- The final `bottom_crop`: the white-run boundary (defaulting to the
image height), overridden by `last_content_row + 6` when that is
smaller. -/
def bottomCrop (img : Img) : ℕ :=
  match lastContentRow img with
  | some l =>
    if l + 6 < (whiteRunBoundary img).getD img.height then l + 6
    else (whiteRunBoundary img).getD img.height
  | none => (whiteRunBoundary img).getD img.height

/-- The top-whitespace loop: stops at the first non-white row (keeping
`top_crop = y` there), or at the third consecutive white row. -/
def topScanP (p : ℕ → Bool) : List ℕ → ℕ → ℕ
  | [], _ => 0
  | y :: ys, c =>
    if p y then
      if 3 ≤ c + 1 then y else topScanP p ys (c + 1)
    else y

/-- `top_crop` over the first `min(100, height)` rows. -/
def topCrop (img : Img) : ℕ :=
  topScanP (isWhiteRow img) (List.range (min 100 img.height)) 0

/-- The whitespace crop (lines 316-321): when a boundary moved, crop to
`(0, top, width, min(height, bottom))`. -/
def whitespaceCrop (img : Img) : Img :=
  if 0 < topCrop img ∨ bottomCrop img < img.height then
    ⟨img.width, min img.height (bottomCrop img) - topCrop img,
      fun x y => img.px x (y + topCrop img)⟩
  else img

/-- The hard crop from the bottom applied when the capture is taller
than the requested height (lines 221-226). -/
def hardCrop (img : Img) (th : ℕ) : Img :=
  if th < img.height then ⟨img.width, th, img.px⟩ else img

/-- The sizes observed along the post-processing pipeline; the final
resize (lines 323-332) is modelled at the size level since its
resampled pixels are never re-examined. -/
structure PostResult where
  afterHardCrop : ℕ × ℕ
  top : ℕ
  bottom : ℕ
  afterWhitespace : ℕ × ℕ
  final : ℕ × ℕ
deriving DecidableEq

/-- The whole post-processing of `generate_calendar_screenshot`: hard
crop, whitespace crop, resize to `(tw, th)` when the size differs. -/
def postProcess (img : Img) (tw th : ℕ) : PostResult :=
  ⟨((hardCrop img th).width, (hardCrop img th).height),
    topCrop (hardCrop img th), bottomCrop (hardCrop img th),
    ((whitespaceCrop (hardCrop img th)).width, (whitespaceCrop (hardCrop img th)).height),
    if (whitespaceCrop (hardCrop img th)).width ≠ tw ∨
        (whitespaceCrop (hardCrop img th)).height ≠ th then (tw, th)
    else ((whitespaceCrop (hardCrop img th)).width, (whitespaceCrop (hardCrop img th)).height)⟩

end ECal

namespace ECal

/-- The content test as a pure counting comparison. -/
theorem isContentRow_eq_nat (img : Img) (y : ℕ) :
    isContentRow img y =
      (decide (0 < sampledCount img) &&
        decide (2 * sampledCount img ≤ 100 * nonWhiteCount img y)) := by
  unfold isContentRow nonWhiteRatio
  by_cases hs : 0 < sampledCount img
  · rw [if_pos hs, decide_eq_true hs, Bool.true_and]
    have hs' : (0 : ℚ) < sampledCount img := by exact_mod_cast hs
    rw [decide_eq_decide, div_le_div_iff₀ (by norm_num) hs',
      mul_comm ((nonWhiteCount img y : ℚ)) 100]
    exact_mod_cast Iff.rfl
  · rw [if_neg hs, decide_eq_false hs, Bool.false_and]
    rw [decide_eq_false]
    norm_num

/-- The white-row test as a pure counting comparison. -/
theorem isWhiteRow_eq_nat (img : Img) (y : ℕ) :
    isWhiteRow img y = decide (90 * sampledCount img < 100 * whiteCount img y) := by
  unfold isWhiteRow whiteRatio
  by_cases hs : 0 < sampledCount img
  · rw [if_pos hs]
    have hs' : (0 : ℚ) < sampledCount img := by exact_mod_cast hs
    rw [decide_eq_decide, div_lt_div_iff₀ (by norm_num) hs',
      mul_comm ((whiteCount img y : ℚ)) 100]
    exact_mod_cast Iff.rfl
  · rw [if_neg hs]
    have h0 : sampledCount img = 0 := by omega
    have hwc : whiteCount img y = 0 := by
      unfold whiteCount
      unfold sampledCount at h0
      rw [List.length_eq_zero.mp h0]
      rfl
    rw [h0, hwc, decide_eq_decide]
    norm_num

theorem lastContentRow_eq_nat (img : Img) :
    lastContentRow img = (descRows img.height (rowsToCheck img.height)).find?
      fun y => decide (0 < sampledCount img) &&
        decide (2 * sampledCount img ≤ 100 * nonWhiteCount img y) := by
  unfold lastContentRow
  congr 1
  funext y
  exact isContentRow_eq_nat img y

theorem whiteRunBoundary_eq_nat (img : Img) :
    whiteRunBoundary img = runScanP
      (fun y => decide (90 * sampledCount img < 100 * whiteCount img y))
      (descRows img.height (rowsToCheck img.height)) 0 := by
  unfold whiteRunBoundary
  congr 1
  funext y
  exact isWhiteRow_eq_nat img y

theorem topCrop_eq_nat (img : Img) :
    topCrop img = topScanP
      (fun y => decide (90 * sampledCount img < 100 * whiteCount img y))
      (List.range (min 100 img.height)) 0 := by
  unfold topCrop
  congr 1
  funext y
  exact isWhiteRow_eq_nat img y

end ECal

namespace ECal

/-- `find?` over the descending row window finds exactly the bottommost
row satisfying the predicate, when one exists in the window. -/
theorem descRows_find?_iff (p : ℕ → Bool) :
    ∀ (n h : ℕ), n ≤ h → ∀ l, ((descRows h n).find? p = some l ↔
      (h - n ≤ l ∧ l < h ∧ p l = true ∧ ∀ y, l < y → y < h → p y = false)) := by
  intro n
  induction n with
  | zero =>
    intro h _ l
    simp only [descRows, List.find?]
    constructor
    · intro hf
      exact absurd hf (by simp)
    · rintro ⟨h1, h2, -, -⟩
      omega
  | succ n ih =>
    intro h hn l
    simp only [descRows]
    by_cases hp : p (h - 1) = true
    · rw [List.find?_cons_of_pos _ hp]
      constructor
      · intro hl
        injection hl with hl
        subst hl
        refine ⟨by omega, by omega, hp, ?_⟩
        intro y hy1 hy2
        omega
      · rintro ⟨hl1, hl2, hl3, hl4⟩
        have hleq : l = h - 1 := by
          by_contra hne
          have := hl4 (h - 1) (by omega) (by omega)
          rw [hp] at this
          exact Bool.noConfusion this
        rw [hleq]
    · rw [List.find?_cons_of_neg _ (by simpa using hp)]
      have hp' : p (h - 1) = false := by
        cases hq : p (h - 1)
        · rfl
        · exact absurd hq hp
      rw [ih (h - 1) (by omega) l]
      constructor
      · rintro ⟨a1, a2, a3, a4⟩
        refine ⟨by omega, by omega, a3, ?_⟩
        intro y hy1 hy2
        by_cases hyh : y = h - 1
        · rw [hyh]
          exact hp'
        · exact a4 y hy1 (by omega)
      · rintro ⟨b1, b2, b3, b4⟩
        have hlh : l ≠ h - 1 := by
          intro he
          rw [he, hp'] at b3
          exact Bool.noConfusion b3
        refine ⟨by omega, by omega, b3, ?_⟩
        intro y hy1 hy2
        exact b4 y hy1 (by omega)

end ECal

namespace ECal

/-- The consecutive-white-rows loop triggers exactly at the highest row
`y` of the window such that `y`, `y+1`, `y+2` all satisfy the predicate
(the seed counter `c` accounts for already-scanned rows just above the
window), and returns `y + 1`. -/
theorem runScanP_some_iff (p : ℕ → Bool) :
    ∀ (n h c : ℕ), n ≤ h → c ≤ 2 → (∀ i, i < c → p (h + i) = true) →
      ∀ b, (runScanP p (descRows h n) c = some b ↔
        ∃ y, b = y + 1 ∧ h - n ≤ y ∧ y + 2 < h + c ∧
          p y = true ∧ p (y + 1) = true ∧ p (y + 2) = true ∧
          ∀ z, y < z → z + 2 < h + c →
            ¬(p z = true ∧ p (z + 1) = true ∧ p (z + 2) = true)) := by
  intro n
  induction n with
  | zero =>
    intro h c _ hc _ b
    simp only [descRows, runScanP]
    constructor
    · intro hf
      exact absurd hf (by simp)
    · rintro ⟨y, -, hy1, hy2, -⟩
      omega
  | succ n ih =>
    intro h c hn hc hws b
    simp only [descRows, runScanP]
    by_cases hp : p (h - 1) = true
    · rw [if_pos hp]
      by_cases hctr : 3 ≤ c + 1
      · have hc2 : c = 2 := by omega
        subst hc2
        rw [if_pos hctr]
        have hph : p (h - 1 + 1) = true := by
          rw [show h - 1 + 1 = h + 0 from by omega]
          exact hws 0 (by omega)
        have hph1 : p (h - 1 + 2) = true := by
          rw [show h - 1 + 2 = h + 1 from by omega]
          exact hws 1 (by omega)
        constructor
        · intro hb
          injection hb with hb
          subst hb
          refine ⟨h - 1, rfl, by omega, by omega, hp, hph, hph1, ?_⟩
          intro z hz1 hz2
          omega
        · rintro ⟨y, hb, hy1, hy2, hpy, hpy1, hpy2, hmax⟩
          have hyeq : y = h - 1 := by
            by_contra hne
            exact hmax (h - 1) (by omega) (by omega) ⟨hp, hph, hph1⟩
          rw [hb, hyeq]
      · rw [if_neg hctr]
        have hws' : ∀ i, i < c + 1 → p (h - 1 + i) = true := by
          intro i hi
          rcases Nat.eq_zero_or_pos i with hi0 | hi0
          · rw [hi0]
            simpa using hp
          · rw [show h - 1 + i = h + (i - 1) from by omega]
            exact hws (i - 1) (by omega)
        rw [ih (h - 1) (c + 1) (by omega) (by omega) hws' b]
        constructor <;> rintro ⟨y, hb, hy1, hy2, hpy, hpy1, hpy2, hmax⟩ <;>
          exact ⟨y, hb, by omega, by omega, hpy, hpy1, hpy2,
            fun z hz1 hz2 => hmax z hz1 (by omega)⟩
    · rw [if_neg hp]
      have hp' : p (h - 1) = false := by
        cases hq : p (h - 1)
        · rfl
        · exact absurd hq hp
      rw [ih (h - 1) 0 (by omega) (by omega) (fun i hi => absurd hi (by omega)) b]
      constructor
      · rintro ⟨y, hb, hy1, hy2, hpy, hpy1, hpy2, hmax⟩
        refine ⟨y, hb, by omega, by omega, hpy, hpy1, hpy2, ?_⟩
        rintro z hz1 hz2 ⟨hq, hq1, hq2⟩
        by_cases hzlt : z + 2 < h - 1
        · exact hmax z hz1 hzlt ⟨hq, hq1, hq2⟩
        · have hcase : z = h - 1 ∨ z + 1 = h - 1 ∨ z + 2 = h - 1 := by omega
          rcases hcase with he | he | he
          · rw [he, hp'] at hq
            exact Bool.noConfusion hq
          · rw [he, hp'] at hq1
            exact Bool.noConfusion hq1
          · rw [he, hp'] at hq2
            exact Bool.noConfusion hq2
      · rintro ⟨y, hb, hy1, hy2, hpy, hpy1, hpy2, hmax⟩
        have hne0 : y ≠ h - 1 := by
          intro he
          rw [he, hp'] at hpy
          exact Bool.noConfusion hpy
        have hne1 : y + 1 ≠ h - 1 := by
          intro he
          rw [he, hp'] at hpy1
          exact Bool.noConfusion hpy1
        have hne2 : y + 2 ≠ h - 1 := by
          intro he
          rw [he, hp'] at hpy2
          exact Bool.noConfusion hpy2
        refine ⟨y, hb, by omega, by omega, hpy, hpy1, hpy2, ?_⟩
        intro z hz1 hz2
        exact hmax z hz1 (by omega)

end ECal

namespace ECal

/-- The 50×8 image of the C7 counterexample: rows 0-4 black, rows 5 and
7 pure white, row 6 white except for two black pixels (4% non-white, so
simultaneously a >90%-white row and a ≥2%-content row). -/
def imgC7 : Img :=
  ⟨50, 8, fun x y =>
    if y ≤ 4 then (0, 0, 0)
    else if y = 6 then (if x < 2 then (0, 0, 0) else (255, 255, 255))
    else (255, 255, 255)⟩

/-- C7 (amended): signal (a) is the bottommost window row with ≥2%
non-white samples, plus 6; signal (b) triggers at the highest window
row `y` whose rows `y`, `y+1`, `y+2` are each >90% white and returns
`y + 1` (one more than the topmost row of the first bottom-up run of 3,
so the run's topmost row is kept); the final bottom crop is the smaller
of the two signals (each defaulting to the image height) and is never
negative.  The original claim's "boundary immediately above the run"
and "never discards content rows" are both off: see the
counterexample. -/
theorem claim_C7_main (img : Img) :
    (∀ l, lastContentRow img = some l ↔
        (img.height - rowsToCheck img.height ≤ l ∧ l < img.height ∧
          isContentRow img l = true ∧
          ∀ y, l < y → y < img.height → isContentRow img y = false)) ∧
      (∀ b, whiteRunBoundary img = some b ↔
          ∃ y, b = y + 1 ∧ img.height - rowsToCheck img.height ≤ y ∧
            y + 2 < img.height ∧ isWhiteRow img y = true ∧
            isWhiteRow img (y + 1) = true ∧ isWhiteRow img (y + 2) = true ∧
            ∀ z, y < z → z + 2 < img.height →
              ¬(isWhiteRow img z = true ∧ isWhiteRow img (z + 1) = true ∧
                isWhiteRow img (z + 2) = true)) ∧
      bottomCrop img =
        min (((lastContentRow img).map (· + 6)).getD img.height)
          ((whiteRunBoundary img).getD img.height) ∧
      0 ≤ bottomCrop img := by
  have hn : rowsToCheck img.height ≤ img.height := min_le_right _ _
  have hrun0 : ∀ b, whiteRunBoundary img = some b →
      ∃ y, b = y + 1 ∧ y + 2 < img.height := by
    intro b hb
    have h0 := runScanP_some_iff (isWhiteRow img) (rowsToCheck img.height) img.height 0 hn
      (by omega) (fun i hi => absurd hi (by omega)) b
    obtain ⟨y, hbe, -, hy2, -⟩ := h0.mp hb
    exact ⟨y, hbe, by omega⟩
  refine ⟨?_, ?_, ?_, Nat.zero_le _⟩
  · intro l
    exact descRows_find?_iff (isContentRow img) (rowsToCheck img.height) img.height hn l
  · intro b
    have h0 := runScanP_some_iff (isWhiteRow img) (rowsToCheck img.height) img.height 0 hn
      (by omega) (fun i hi => absurd hi (by omega)) b
    simpa using h0
  · unfold bottomCrop
    cases hlcr : lastContentRow img with
    | none =>
      simp only [Option.map_none', Option.getD_none]
      cases hrun : whiteRunBoundary img with
      | none => simp
      | some b =>
        obtain ⟨y, hbe, hy2⟩ := hrun0 b hrun
        simp only [Option.getD_some]
        omega
    | some l =>
      simp only [Option.map_some', Option.getD_some]
      cases hrun : whiteRunBoundary img with
      | none =>
        simp only [Option.getD_none]
        split_ifs with hlt <;> omega
      | some b =>
        simp only [Option.getD_some]
        split_ifs with hlt <;> omega

/-- C7 witness: the combined-boundary equation at the concrete 50×8
image. -/
theorem claim_C7_witness :
    bottomCrop imgC7 =
      min (((lastContentRow imgC7).map (· + 6)).getD imgC7.height)
        ((whiteRunBoundary imgC7).getD imgC7.height) :=
  (claim_C7_main imgC7).2.2.1

/-- C7: the claim as stated is false on `imgC7`: rows 5, 6, 7 are the
first bottom-up run of three >90%-white rows, so the claimed boundary
"immediately above the run" would be 5, but the code crops at 6; and
row 6 is a ≥2%-content row, yet the final crop 6 discards it (the crop
keeps only rows `0..5`), so content rows can be discarded. -/
theorem claim_C7_counterexample :
    bottomCrop imgC7 = 6 ∧ whiteRunBoundary imgC7 = some 6 ∧
      isContentRow imgC7 6 = true ∧ isWhiteRow imgC7 5 = true ∧
      isWhiteRow imgC7 6 = true ∧ isWhiteRow imgC7 7 = true ∧
      isWhiteRow imgC7 4 = false ∧ isContentRow imgC7 7 = false ∧
      imgC7.height = 8 := by
  have hlcr : lastContentRow imgC7 = some 6 := by
    rw [lastContentRow_eq_nat]
    decide
  have hrun : whiteRunBoundary imgC7 = some 6 := by
    rw [whiteRunBoundary_eq_nat]
    decide
  have hbc : bottomCrop imgC7 = 6 := by
    unfold bottomCrop
    rw [hlcr, hrun]
    decide
  refine ⟨hbc, hrun, ?_, ?_, ?_, ?_, ?_, ?_, rfl⟩ <;>
    first
      | (rw [isContentRow_eq_nat]; decide)
      | (rw [isWhiteRow_eq_nat]; decide)

end ECal

namespace ECal

/-- The 1600×1400 capture of end-to-end scenario 4: content down to row
1119, pure white from row 1120 on (so the bottom 80 rows of the
1600×1200 hard crop are white). -/
def imgC8 : Img :=
  ⟨1600, 1400, fun _ y => if y ≤ 1119 then (0, 0, 0) else (255, 255, 255)⟩

set_option maxRecDepth 40000 in
/-- C8: the post-processing of `generate_calendar_screenshot` always
delivers exactly the requested `(width, height)`: a taller capture is
first hard-cropped from the bottom to the target height, then
whitespace-cropped, and any size mismatch is resized back to the exact
target; concretely, a 1600×1400 capture with white below row 1119 is
hard-cropped to 1600×1200, whitespace-cropped to 1600×1125, and
resized to exactly 1600×1200. -/
theorem claim_C8_main :
    (∀ (img : Img) (tw th : ℕ), (postProcess img tw th).final = (tw, th)) ∧
      (∀ (img : Img) (tw th : ℕ),
          (postProcess img tw th).afterHardCrop = (img.width, min img.height th)) ∧
      (postProcess imgC8 1600 1200).afterHardCrop = (1600, 1200) ∧
      (postProcess imgC8 1600 1200).afterWhitespace = (1600, 1125) ∧
      (postProcess imgC8 1600 1200).final = (1600, 1200) := by
  have hfinal : ∀ (img : Img) (tw th : ℕ), (postProcess img tw th).final = (tw, th) := by
    intro img tw th
    unfold postProcess
    simp only
    split_ifs with hcond
    · rfl
    · push_neg at hcond
      rw [hcond.1, hcond.2]
  have hhard : ∀ (img : Img) (tw th : ℕ),
      (postProcess img tw th).afterHardCrop = (img.width, min img.height th) := by
    intro img tw th
    unfold postProcess hardCrop
    simp only
    split_ifs with hcond
    · rw [Nat.min_eq_right (le_of_lt hcond)]
    · rw [Nat.min_eq_left (by omega)]
  have hhc : hardCrop imgC8 1200 = ⟨1600, 1200, imgC8.px⟩ := rfl
  have hlcr : lastContentRow ⟨1600, 1200, imgC8.px⟩ = some 1119 := by
    rw [lastContentRow_eq_nat]
    decide
  have hrun : whiteRunBoundary ⟨1600, 1200, imgC8.px⟩ = some 1198 := by
    rw [whiteRunBoundary_eq_nat]
    decide
  have hbc : bottomCrop ⟨1600, 1200, imgC8.px⟩ = 1125 := by
    unfold bottomCrop
    rw [hlcr, hrun]
    decide
  have htop : topCrop ⟨1600, 1200, imgC8.px⟩ = 0 := by
    rw [topCrop_eq_nat]
    decide
  have hwcrop : whitespaceCrop ⟨1600, 1200, imgC8.px⟩ =
      ⟨1600, 1125, fun x y => Img.px ⟨1600, 1200, imgC8.px⟩ x (y + topCrop ⟨1600, 1200, imgC8.px⟩)⟩ := by
    unfold whitespaceCrop
    rw [if_pos]
    · rw [hbc, htop]
      simp
    · rw [hbc]
      right
      norm_num
  refine ⟨hfinal, hhard, ?_, ?_, hfinal imgC8 1600 1200⟩
  · unfold postProcess
    rw [hhc]
  · unfold postProcess
    simp only
    rw [hhc, hwcrop]

end ECal

namespace ECal

/-! ## The polling loop of `calendar_sync_service.main`
(`calendar_sync_service.py`, lines 149-191)

Each tick's external observations: whether the manual-trigger endpoint
reported a set trigger (HTTP 200 with `{'trigger': true}`; any failure
or other status counts as not set), the hash fetched right after a
trigger refresh, and the hash fetched by the normal poll.
`get_image_hash` returns `None` on any failure. -/

structure SyncTick where
  trigger : Bool
  fetchAfterTrigger : Option String
  fetchPoll : Option String

/-- Python truthiness of the fetched hash (`if new_hash and ...`):
`None` and the empty string are falsy. -/
def truthyHash : Option String → Bool
  | none => false
  | some s => decide (s ≠ "")

/-- One iteration of the `while True` loop: a manual trigger refreshes
and re-fetches unconditionally; otherwise refresh only when the polled
hash is truthy and differs from `last_hash` (which then updates);
a `None` poll changes nothing.  Returns (uploaded?, new `last_hash`). -/
def syncStep (last : Option String) (t : SyncTick) : Bool × Option String :=
  if t.trigger then (true, t.fetchAfterTrigger)
  else if truthyHash t.fetchPoll = true ∧ t.fetchPoll ≠ last then (true, t.fetchPoll)
  else (false, last)

/-- The upload decisions over a trace of ticks. -/
def syncUploads : Option String → List SyncTick → List Bool
  | _, [] => []
  | last, t :: ts => (syncStep last t).1 :: syncUploads (syncStep last t).2 ts

/-- `main` after argument parsing: an unconditional startup
refresh+upload (the `true`), the initial hash fetch, then the loop. -/
def syncRun (fetch0 : Option String) (ticks : List SyncTick) : Bool × List Bool :=
  (true, syncUploads fetch0 ticks)

/-- C9 (amended): the startup cycle always uploads; a subsequent tick
uploads iff the manual trigger was reported set, or the polled hash is
truthy (non-null and non-empty) and differs from the cached hash
(including when none is cached); a failed (`None`) fetch uploads
nothing, leaves the cached hash unchanged, and the loop goes on to
process every remaining tick. -/
theorem claim_C9_main :
    (∀ (fetch0 : Option String) (ticks : List SyncTick),
        (syncRun fetch0 ticks).1 = true) ∧
      (∀ (last : Option String) (t : SyncTick),
          (syncStep last t).1 = true ↔
            (t.trigger = true ∨ (truthyHash t.fetchPoll = true ∧ t.fetchPoll ≠ last))) ∧
      (∀ (last : Option String) (t : SyncTick),
          t.trigger = false → t.fetchPoll = none → syncStep last t = (false, last)) ∧
      (∀ (fetch0 : Option String) (ticks : List SyncTick),
          (syncRun fetch0 ticks).2.length = ticks.length) := by
  refine ⟨fun _ _ => rfl, ?_, ?_, ?_⟩
  · intro last t
    unfold syncStep
    split_ifs with h1 h2
    · simp [h1]
    · simp [h1, h2]
    · constructor
      · intro hfalse
        exact absurd hfalse (by simp)
      · rintro (ht | hp)
        · exact absurd ht (by simp [h1])
        · exact absurd hp h2
  · intro last t h1 h2
    unfold syncStep
    rw [if_neg (by simp [h1]), if_neg (by simp [h2, truthyHash])]
  · intro fetch0 ticks
    show (syncUploads fetch0 ticks).length = ticks.length
    induction ticks generalizing fetch0 with
    | nil => rfl
    | cons t ts ih => simp [syncUploads, ih]

/-- C9 witness: a failed poll on a tick with a cached hash uploads
nothing and keeps the cache. -/
theorem claim_C9_witness :
    syncStep (some "abc") ⟨false, none, none⟩ = (false, some "abc") :=
  claim_C9_main.2.2.1 (some "abc") ⟨false, none, none⟩ rfl rfl

/-- C9: as stated the claim is false: a fetched hash that is the empty
string is non-null and differs from the cached hash, yet the code's
truthiness test (`if new_hash and ...`) suppresses the upload. -/
theorem claim_C9_counterexample :
    (some "" : Option String) ≠ none ∧ (some "" : Option String) ≠ some "h" ∧
      syncStep (some "h") ⟨false, none, some ""⟩ = (false, some "h") :=
  ⟨by decide, by decide, rfl⟩

/-! ## The `/upload` handler (`image_receiver_server.py`, lines 218-385)

The request surface the handler reads before and during processing, and
the observable outcome: HTTP status, error payload, whether a
calendar-sync → image-receiver mode switch was attempted, whether the
image file was processed, and whether the display script was run. -/

structure UploadRequest where
  hasFilePart : Bool
  filename : String
  isSyncUpload : Bool
  currentMode : String
  rotationMode : String
  autoZoom : Bool
  displayOk : Bool

structure UploadOutcome where
  status : ℕ
  error : Option String
  modeSwitchAttempted : Bool
  imageProcessed : Bool
  displayInvoked : Bool
deriving DecidableEq

/-- `upload_image`: reject requests with no `file` part (400), then
empty filenames (400), before any processing; otherwise attempt the
mode switch when in `calendar_sync` mode for a non-sync upload, process
the image, and run the display script (500 on its failure). -/
def upload_image (r : UploadRequest) : UploadOutcome :=
  if r.hasFilePart = false then
    ⟨400, some "No file part in the request", false, false, false⟩
  else if r.filename = "" then
    ⟨400, some "No selected file", false, false, false⟩
  else
    ⟨if r.displayOk then 200 else 500,
      if r.displayOk then none else some "display_image.py failed",
      decide (r.currentMode = "calendar_sync" ∧ r.isSyncUpload = false), true, true⟩

/-- C10: a POST without a `file` part or with an empty filename returns
HTTP 400 with an error body and performs no image processing, no mode
switch, and no display-script invocation. -/
theorem claim_C10_main (r : UploadRequest)
    (h : r.hasFilePart = false ∨ r.filename = "") :
    (upload_image r).status = 400 ∧ (upload_image r).error ≠ none ∧
      (upload_image r).modeSwitchAttempted = false ∧
      (upload_image r).imageProcessed = false ∧
      (upload_image r).displayInvoked = false := by
  unfold upload_image
  rcases h with h | h
  · rw [if_pos h]
    exact ⟨rfl, by simp, rfl, rfl, rfl⟩
  · split_ifs with h1
    · exact ⟨rfl, by simp, rfl, rfl, rfl⟩
    · exact ⟨rfl, by simp, rfl, rfl, rfl⟩

/-- C10 witness: a concrete request with a file part but an empty
filename is rejected with 400 and no side effects. -/
theorem claim_C10_witness :
    (upload_image ⟨true, "", false, "calendar_sync", "landscape", true, true⟩).status = 400 ∧
      (upload_image ⟨true, "", false, "calendar_sync", "landscape", true, true⟩).error ≠ none ∧
      (upload_image ⟨true, "", false, "calendar_sync", "landscape", true, true⟩).modeSwitchAttempted = false ∧
      (upload_image ⟨true, "", false, "calendar_sync", "landscape", true, true⟩).imageProcessed = false ∧
      (upload_image ⟨true, "", false, "calendar_sync", "landscape", true, true⟩).displayInvoked = false :=
  claim_C10_main ⟨true, "", false, "calendar_sync", "landscape", true, true⟩ (Or.inr rfl)

end ECal
